import Mathlib

/-!
# Verification of the `container-source-policy` resolution engine
A shallow embedding of the core resolution logic of the
`wharflab/container-source-policy` repository, together with proofs of
the specified properties.  Embedded components, all translated from
the Go source: `httpchecksum/client.go` (the cache-header volatility
check `checkCacheability`, the Vary-header capture
`extractVaryHeaders`, the HEAD strategy, the GitHub-release
provider-API strategy, the full-body fallback
`computeChecksumWithHeaders`, and the strategy chain
`GetChecksumWithHeaders`); `internal/git/client.go` (`ParseGitURL` and
the `ls-remote` output parsing and validation of `GetCommitChecksum`);
and `internal/pin/pin.go` (the task collector `taskCollector.collect`:
per-kind dedup keyed on the literal reference string, filtering of
already-digested image references, and the global order index).
External effects — network transfers, subprocess execution, the
third-party RFC 7234 Cache-Control parser, base64/JSON decoding and
the SHA-256 primitive — are represented by explicit inputs carrying
their observable outcomes; all decision logic that the repository
itself implements is translated directly.  Go string functions are
modelled over `List Char` with ASCII case folding, which covers every
header name and hex digest on these code paths.
-/

namespace ContainerSourcePolicy

/-- ASCII lower-casing of a string, modelling Go's `strings.ToLower`. -/
def lowerStr (s : String) : String := String.mk (s.data.map Char.toLower)

/-- `List`-level substring test: does `pat` occur inside `l`?
Models Go's `strings.Contains`. -/
def listContainsSub (pat : List Char) : List Char → Bool
  | [] => pat.isEmpty
  | c :: t => pat.isPrefixOf (c :: t) || listContainsSub pat t

/-- Substring test on strings, modelling Go's `strings.Contains`. -/
def containsSub (s pat : String) : Bool := listContainsSub pat.data s.data

/-- Trim a single character from both ends, repeatedly; models Go's
`strings.Trim(s, cutset)` for a one-character cutset. -/
def trimCharList (c : Char) (l : List Char) : List Char :=
  ((l.dropWhile (· == c)).reverse.dropWhile (· == c)).reverse

/-- Go's `strings.Trim(etag, "\"")`. -/
def trimQuotes (s : String) : String := String.mk (trimCharList '"' s.data)

/-- Whitespace predicate used by `trimSpace` (ASCII subset of
`unicode.IsSpace`). -/
def isSpaceChar (c : Char) : Bool := c == ' ' || c == '\t' || c == '\n' || c == '\r'

/-- Go's `strings.TrimSpace` (ASCII whitespace). -/
def trimSpace (s : String) : String :=
  String.mk (((s.data.dropWhile isSpaceChar).reverse.dropWhile isSpaceChar).reverse)

/-- Split a character list at every occurrence of characters satisfying
`p`; always returns at least one (possibly empty) piece, like Go's
`strings.Split`. -/
def splitList (p : Char → Bool) : List Char → List (List Char)
  | [] => [[]]
  | c :: t =>
    if p c then [] :: splitList p t
    else match splitList p t with
      | [] => [[c]]
      | piece :: rest => (c :: piece) :: rest

/-- String-level split on a single separator character, modelling Go's
`strings.Split(s, sep)` for a one-character separator. -/
def splitStr (s : String) (sep : Char) : List String :=
  (splitList (· == sep) s.data).map String.mk

/-- Go's `strings.Fields`: substrings separated by runs of whitespace. -/
def fieldsStr (s : String) : List String :=
  (splitList isSpaceChar s.data).filterMap
    (fun piece => if piece.isEmpty then none else some (String.mk piece))

/-- Go's `strings.HasSuffix`. -/
def hasSuffixStr (s suffix : String) : Bool := suffix.data.isSuffixOf s.data

/-- Go's `strings.HasPrefix` (used to state the `sha256:` prefix
invariant). -/
def hasPrefixStr (s pre : String) : Bool := pre.data.isPrefixOf s.data

/-- Hex digit test matching Go's `regexp` `^[0-9a-fA-F]+$` character
class and `encoding/hex`'s accepted alphabet. -/
def isHexChar (c : Char) : Bool :=
  ('0' ≤ c && c ≤ '9') || ('a' ≤ c && c ≤ 'f') || ('A' ≤ c && c ≤ 'F')

/-- Go's `isHexString` (`client.go`): the regexp `^[0-9a-fA-F]+$`
requires a non-empty all-hex string. -/
def isHexString (s : String) : Bool := !s.data.isEmpty && s.data.all isHexChar

/-- One lowercase hex digit for a value `< 16`, as produced by Go's
`encoding/hex`. -/
def hexDigitChar (n : Nat) : Char :=
  if n < 10 then Char.ofNat (48 + n) else Char.ofNat (87 + n % 16)

/-- Go's `hex.EncodeToString` on a byte sequence (each byte `< 256`):
two lowercase hex digits per byte. -/
def hexEncode (bytes : List Nat) : String :=
  String.mk (bytes.flatMap (fun b => [hexDigitChar (b / 16 % 16), hexDigitChar (b % 16)]))

/-- The classified errors of the HTTP resolver: `AuthError{URL, StatusCode}`,
`VolatileContentError{URL, Reason}`, and every other (fatal) `error`
carrying its message. -/
inductive HTTPError where
  | auth (url : String) (statusCode : Nat)
  | volatile (url : String) (reason : String)
  | fatal (msg : String)
deriving DecidableEq, Repr

/-- Go's `IsAuthError`. -/
def HTTPError.isAuth : HTTPError → Bool
  | .auth _ _ => true
  | _ => false

/-- Go's `IsVolatileContentError`. -/
def HTTPError.isVolatile : HTTPError → Bool
  | .volatile _ _ => true
  | _ => false

/-- `ChecksumResult`: the checksum (format `sha256:...`) plus the
request headers the response varies by.  The Go `map[string]string` is
modelled as an association list whose lookup takes the most recent
binding (see `lookupHeader` / `mapSet`). -/
structure ChecksumResult where
  checksum : String
  headers : List (String × String)
deriving DecidableEq, Repr

/-- The fields of `cacheobject.ResponseCacheDirectives` consumed by
`checkCacheability`.  `maxAge`/`sMaxAge` are delta-seconds: `-1` when
the directive is absent, `≥ 0` when present. -/
structure CCDirectives where
  noStore : Bool
  noCachePresent : Bool
  maxAge : Int
  sMaxAge : Int
deriving DecidableEq, Repr

/-- The header signals consumed by `checkCacheability`:
* `pragma` — the raw `Pragma` header value (`""` when absent);
* `cacheControl` — `none` when the `Cache-Control` header is absent or
  empty; `some none` when it is present but
  `cacheobject.ParseResponseCacheControl` fails (malformed);
  `some (some d)` when it parses to directives `d`;
* `expiresPast` — `none` when the `Expires` header is absent or empty;
  `some none` when it is present but `http.ParseTime` fails;
  `some (some b)` when it parses, with `b` the value of
  `expiresTime.Before(time.Now())`. -/
structure HeaderSignals where
  pragma : String
  cacheControl : Option (Option CCDirectives)
  expiresPast : Option (Option Bool)
deriving DecidableEq, Repr

/-- The trailing `Expires` check of `checkCacheability`: flag only a
header that parses to a time already in the past. -/
def expiresCheck (h : HeaderSignals) : Option String :=
  match h.expiresPast with
  | some (some true) => some "Expires header indicates already expired content"
  | _ => none

/-- `checkCacheability` (`httpchecksum/client.go`): returns `none` when
the content is safe to pin, `some reason` (the `VolatileContentError`
reason) when it is volatile.
Translated clause by clause from the source:
1. `Pragma` containing `no-cache` (case-insensitive) ⇒ volatile.
2. A non-empty `Cache-Control`: a parse error returns `nil`
   immediately (lenient); otherwise `NoStore`, `NoCachePresent`, and an
   effective max-age (`SMaxAge` when `≥ 0`, else `MaxAge`) of `0` are
   volatile.
3. Otherwise the `Expires` check runs. -/
def checkCacheability (h : HeaderSignals) : Option String :=
  if containsSub (lowerStr h.pragma) "no-cache" then
    some "Pragma: no-cache"
  else
    match h.cacheControl with
    | some none => none
    | some (some d) =>
      if d.noStore then some "Cache-Control: no-store"
      else if d.noCachePresent then some "Cache-Control: no-cache"
      else
        let effectiveMaxAge := if d.sMaxAge ≥ 0 then d.sMaxAge else d.maxAge
        if effectiveMaxAge = 0 then
          some "Cache-Control: max-age=0 (immediately stale)"
        else expiresCheck h
    | none => expiresCheck h

/-! Decomposed signal predicates, used to state the claims about
`checkCacheability`. -/
/-- Signal: `Pragma` contains `no-cache`. -/
def pragmaSignal (h : HeaderSignals) : Bool :=
  containsSub (lowerStr h.pragma) "no-cache"

/-- Signal: a parseable `Cache-Control` contains `no-store` or
`no-cache`, or its effective max-age is `0`. -/
def ccDirectiveSignal (h : HeaderSignals) : Bool :=
  match h.cacheControl with
  | some (some d) =>
    d.noStore || d.noCachePresent ||
      (if d.sMaxAge ≥ 0 then d.sMaxAge else d.maxAge) == 0
  | _ => false

/-- The `Cache-Control` header is present but malformed. -/
def ccMalformed (h : HeaderSignals) : Bool :=
  match h.cacheControl with
  | some none => true
  | _ => false

/-- Signal: `Expires` parses to a time in the past. -/
def expiresPastSignal (h : HeaderSignals) : Bool :=
  match h.expiresPast with
  | some (some b) => b
  | _ => false

/-- The volatility signals exactly as the specification lists them:
`Pragma: no-cache`; a parseable `Cache-Control` with `no-store`,
`no-cache` or effective max-age `0`; an `Expires` in the past. -/
def specVolatilitySignal (h : HeaderSignals) : Bool :=
  pragmaSignal h || ccDirectiveSignal h || expiresPastSignal h

/-- `http.Header.Get` on the request headers: case-insensitive lookup,
`""` when the header is absent. -/
def headerGet (reqHeaders : List (String × String)) (name : String) : String :=
  match reqHeaders.find? (fun p => lowerStr p.1 == lowerStr name) with
  | some p => p.2
  | none => ""

/-- Go map assignment `m[k] = v`. -/
def mapSet (m : List (String × String)) (k v : String) : List (String × String) :=
  (k, v) :: m

/-- Go map read `m[k]` (as an `Option`). -/
def lookupHeader (m : List (String × String)) (k : String) : Option String :=
  (m.find? (fun p => p.1 == k)).map (·.2)

/-- The loop of `extractVaryHeaders` over the comma-split `Vary` names:
trim each name, skip empty names and names with no (case-insensitive)
value in the request, store the rest under the lowercase name. -/
def collectVary (reqHeaders : List (String × String)) :
    List String → List (String × String) → List (String × String)
  | [], m => m
  | n :: rest, m =>
    if trimSpace n = "" then collectVary reqHeaders rest m
    else if headerGet reqHeaders (trimSpace n) = "" then collectVary reqHeaders rest m
    else
      collectVary reqHeaders rest
        (mapSet m (lowerStr (trimSpace n)) (headerGet reqHeaders (trimSpace n)))

/-- `extractVaryHeaders` (`httpchecksum/client.go`): an absent `Vary`
header or `Vary: *` yields an empty map; otherwise the comma-separated
names are processed by `collectVary`. -/
def extractVaryHeaders (reqHeaders : List (String × String)) (varyHeader : String) :
    List (String × String) :=
  if varyHeader = "" then []
  else if trimSpace varyHeader = "*" then []
  else collectVary reqHeaders (splitStr varyHeader ',') []

/-- The captured key contributed by one `Vary` name, per the
specification: the lowercase form of the trimmed name when the trimmed
name is non-empty and has a non-empty (case-insensitive) value in the
request. -/
def varyKeyOf (reqHeaders : List (String × String)) (n : String) : Option String :=
  if trimSpace n = "" then none
  else if headerGet reqHeaders (trimSpace n) = "" then none
  else some (lowerStr (trimSpace n))

/-- The keys the specification says must be captured. -/
def varyCaptureKeys (reqHeaders : List (String × String)) (varyHeader : String) :
    List String :=
  (splitStr varyHeader ',').filterMap (varyKeyOf reqHeaders)

/-- The request headers set by the HEAD strategy: the tool's
`User-Agent` and the S3 checksum opt-in header. -/
def headReqHeaders (ua : String) : List (String × String) :=
  [("User-Agent", ua), ("X-Amz-Checksum-Mode", "ENABLED")]

/-- The request headers set by the full-body GET: the tool's
`User-Agent`. -/
def getReqHeaders (ua : String) : List (String × String) :=
  [("User-Agent", ua)]

/-- Observable data of a HEAD response consumed by the code (the
network transfer is external).  `amzChecksumSha256` is the
`X-Amz-Checksum-Sha256` header combined with the byte-level outcome of
`decodeBase64ToHex`: `none` when the header is absent or empty,
`some none` when it is present but both base64 decodings fail,
`some (some bytes)` when it decodes to `bytes`. -/
structure HEADResponse where
  status : Nat
  cache : HeaderSignals
  server : String
  amzChecksumSha256 : Option (Option (List Nat))
  etag : String
  vary : String
deriving DecidableEq, Repr

/-- `extractS3Checksum` (`httpchecksum/client.go`): the only algorithm
accepted is SHA-256; the base64 value is re-encoded as hex (via
`decodeBase64ToHex`, whose byte-level outcome is the input here). -/
def extractS3Checksum : Option (Option (List Nat)) → Except String String
  | some (some bytes) => .ok ("sha256:" ++ hexEncode bytes)
  | _ => .error "no SHA-256 checksum found in S3 headers"

/-- `getChecksumFromHEADWithHeaders` (`httpchecksum/client.go`):
401/403 is an `AuthError`; any other non-200 status is fatal; the
cacheability check runs before checksum extraction; `Server: AmazonS3`
selects the S3 header, otherwise an ETag of exactly 64 hex characters
(after trimming quotes) is taken as a SHA-256.  (Go checks the byte
length of the ETag; an ETag passes both the length and hex test exactly
when it is 64 ASCII hex characters, so the character-level model
accepts the same set.) -/
def getChecksumFromHEADWithHeaders (rawURL ua : String) (r : HEADResponse) :
    Except HTTPError ChecksumResult :=
  if r.status == 401 || r.status == 403 then .error (.auth rawURL r.status)
  else if r.status ≠ 200 then .error (.fatal ("HEAD request failed: " ++ toString r.status))
  else
    match checkCacheability r.cache with
    | some reason => .error (.volatile rawURL reason)
    | none =>
      if r.server == "AmazonS3" then
        match extractS3Checksum r.amzChecksumSha256 with
        | .ok checksum => .ok ⟨checksum, extractVaryHeaders (headReqHeaders ua) r.vary⟩
        | .error e => .error (.fatal e)
      else
        if (trimQuotes r.etag).length == 64 && isHexString (trimQuotes r.etag) then
          .ok ⟨"sha256:" ++ trimQuotes r.etag, extractVaryHeaders (headReqHeaders ua) r.vary⟩
        else .error (.fatal "no usable checksum found in headers")

/-- Observable data of the GET response consumed by the code.
`contentLength` is Go's `resp.ContentLength` (`-1` when not declared);
`body` is the byte sequence actually delivered; `readErr` the error
`io.Copy` reported after counting the delivered bytes; `bodyDigest`
the SHA-256 of the delivered bytes (the hash primitive is external;
the code renders it as `sha256:` plus hex).  The optional progress
writer only mirrors the byte stream and never affects the result, so
it is not modelled. -/
structure GETResponse where
  status : Nat
  cache : HeaderSignals
  contentLength : Int
  body : List Nat
  readErr : Option String
  bodyDigest : List Nat
  vary : String
deriving DecidableEq, Repr

/-- `computeChecksumWithHeaders` (`httpchecksum/client.go`): 401/403 is
an `AuthError`; other non-200 is fatal; cacheability is checked before
hashing; a declared non-negative `Content-Length` differing from the
bytes actually read is a fatal content-length mismatch naming both
counts; otherwise a read error is fatal, else the checksum of the read
bytes together with the captured `Vary` headers is returned. -/
def computeChecksumWithHeaders (rawURL ua : String) (r : GETResponse) :
    Except HTTPError ChecksumResult :=
  if r.status == 401 || r.status == 403 then .error (.auth rawURL r.status)
  else if r.status ≠ 200 then .error (.fatal ("GET request failed: " ++ toString r.status))
  else
    match checkCacheability r.cache with
    | some reason => .error (.volatile rawURL reason)
    | none =>
      if 0 ≤ r.contentLength ∧ (r.body.length : Int) ≠ r.contentLength then
        match r.readErr with
        | some e =>
          .error (.fatal ("content length mismatch: server declared " ++
            toString r.contentLength ++ " bytes but sent " ++
            toString (r.body.length : Int) ++ ": " ++ e))
        | none =>
          .error (.fatal ("content length mismatch: server declared " ++
            toString r.contentLength ++ " bytes but sent " ++
            toString (r.body.length : Int)))
      else
        match r.readErr with
        | some e => .error (.fatal ("failed to read response body: " ++ e))
        | none =>
          .ok ⟨"sha256:" ++ hexEncode r.bodyDigest,
            extractVaryHeaders (getReqHeaders ua) r.vary⟩

/-- `GitHubReleaseAsset`: name and (possibly empty) digest field. -/
structure GitHubReleaseAsset where
  name : String
  digest : String
deriving DecidableEq, Repr

/-- The asset-matching loop of `getChecksumFromGitHubRelease`: the
first asset whose name matches and whose digest field is non-empty
contributes its digest, verbatim. -/
def findAssetDigest (assets : List GitHubReleaseAsset) (assetName : String) : Option String :=
  (assets.find? (fun a => a.name == assetName && a.digest != "")).map (·.digest)

/-- `getChecksumFromGitHubRelease` (`httpchecksum/client.go`),
modelled from the point where the release-URL path has been parsed
into owner/repo/tag/asset (the earlier too-few-path-segments and
`url.PathUnescape` failures produce plain fatal errors of the same
class as the ones below); `decodeOk` is the outcome of decoding the
API's JSON body, `assets` the decoded release assets: 401/403 is an
`AuthError` (404 deliberately is not); other non-200 is fatal; a JSON
decode failure is fatal; otherwise the digest of the matching asset is
returned verbatim, or a fatal "not found" error. -/
def getChecksumFromGitHubRelease (rawURL : String) (status : Nat) (decodeOk : Bool)
    (assets : List GitHubReleaseAsset) (assetName : String) : Except HTTPError String :=
  if status == 401 || status == 403 then .error (.auth rawURL status)
  else if status ≠ 200 then .error (.fatal ("GitHub API request failed: " ++ toString status))
  else if !decodeOk then .error (.fatal "failed to decode GitHub API response")
  else
    match findAssetDigest assets assetName with
    | some digest => .ok digest
    | none => .error (.fatal ("asset " ++ assetName ++ " not found or has no digest"))

/-- The URL test selecting the provider-API strategy:
`parsedURL.Host == "github.com" &&
strings.Contains(parsedURL.Path, "/releases/download/")`. -/
def isGitHubReleaseURL (host path : String) : Bool :=
  host == "github.com" && containsSub path "/releases/download/"

/-- The tail of `GetChecksumWithHeaders` after the provider-API block:
a HEAD success with a non-empty checksum is returned; a HEAD `Auth` or
`Volatile` error propagates immediately; everything else falls through
to the full-body fallback outcome. -/
def headStage (head compute : Except HTTPError ChecksumResult) :
    Except HTTPError ChecksumResult :=
  match head with
  | .ok result => if result.checksum ≠ "" then .ok result else compute
  | .error e => if e.isAuth || e.isVolatile then .error e else compute

/-- `GetChecksumWithHeaders` (`httpchecksum/client.go`): on a GitHub
release URL the provider-API outcome is consulted first — a non-empty
checksum is returned (with an empty header map), an `Auth` error
propagates immediately, and any other failure falls through to the
HEAD stage; on any other URL the HEAD stage runs directly. -/
def getChecksumWithHeaders (isGHRelease : Bool) (gh : Except HTTPError String)
    (head compute : Except HTTPError ChecksumResult) : Except HTTPError ChecksumResult :=
  if isGHRelease then
    match gh with
    | .ok checksum =>
      if checksum ≠ "" then .ok ⟨checksum, []⟩ else headStage head compute
    | .error e => if e.isAuth then .error e else headStage head compute
  else headStage head compute

/-- The non-`Auth` errors, by construction (used to quantify over
"every other failure" in the chain claims). -/
def mkNonAuthError : String ⊕ (String × String) → HTTPError
  | .inl msg => .fatal msg
  | .inr (url, reason) => .volatile url reason

/-- Does an HTTP resolution outcome carry a `sha256:`-prefixed
checksum whenever it succeeds? -/
def resultHasSha256Prefix : Except HTTPError ChecksumResult → Bool
  | .ok result => hasPrefixStr result.checksum "sha256:"
  | .error _ => true

/-- Does a provider-API outcome return, on success, the digest field of
one of the release assets verbatim? -/
def okDigestFromAssets (r : Except HTTPError String) (assets : List GitHubReleaseAsset) : Bool :=
  match r with
  | .ok digest => assets.any (fun a => a.digest == digest)
  | .error _ => true

/-- `GitRef`: remote URL, ref (default `HEAD`), optional subdir. -/
structure GitRef where
  remote : String
  ref : String
  subdir : String
deriving DecidableEq, Repr

/-- Go's `strings.SplitN(s, sep, 2)` for a one-character separator:
the part before the first occurrence, plus the remainder when the
separator occurs. -/
def breakFirst (sep : Char) : List Char → List Char × Option (List Char)
  | [] => ([], none)
  | c :: t =>
    if c == sep then ([], some t)
    else
      match breakFirst sep t with
      | (pre, rest) => (c :: pre, rest)

/-- `ParseGitURL` (`internal/git/client.go`): format
`url#ref[:subdir]`; the part before the first `#` is the remote; an
absent or empty fragment, or an empty ref segment, defaults the ref to
`HEAD`.  The Go function returns `(*GitRef, error)`; every path
returns a non-nil `GitRef` and a nil error. -/
def ParseGitURL (rawURL : String) : Except String GitRef :=
  match breakFirst '#' rawURL.data with
  | (remoteChars, none) => .ok ⟨String.mk remoteChars, "HEAD", ""⟩
  | (remoteChars, some fragChars) =>
    if fragChars.isEmpty then .ok ⟨String.mk remoteChars, "HEAD", ""⟩
    else
      match breakFirst ':' fragChars with
      | (refChars, none) =>
        .ok ⟨String.mk remoteChars,
          if refChars.isEmpty then "HEAD" else String.mk refChars, ""⟩
      | (refChars, some subChars) =>
        .ok ⟨String.mk remoteChars,
          if refChars.isEmpty then "HEAD" else String.mk refChars, String.mk subChars⟩

/-- The selection loop of `GetCommitChecksum` over the `ls-remote`
output lines, with the running `commitSHA` accumulator: a line with
fewer than two fields is skipped; the first line whose ref name ends
in the annotated-tag dereference suffix wins immediately; otherwise
the first well-formed line's SHA is kept. -/
def goPickLoop : List String → String → String
  | [], acc => acc
  | line :: rest, acc =>
    match fieldsStr line with
    | sha :: refName :: _ =>
      if hasSuffixStr refName "^\x7b\x7d" then sha
      else if acc = "" then goPickLoop rest sha
      else goPickLoop rest acc
    | _ => goPickLoop rest acc

/-- The commit SHA selected from the `ls-remote` output lines. -/
def pickCommitSHA (lines : List String) : String := goPickLoop lines ""

/-- Go's `hex.DecodeString` succeeds exactly on even-length strings of
hex digits (either case). -/
def hexDecodable (s : String) : Bool := s.length % 2 == 0 && s.data.all isHexChar

/-- The output parsing and validation of `GetCommitChecksum`
(`internal/git/client.go`, the version that queries both `ref` and its
dereferenced form): trim and split the output into lines; an empty
first line means no commit; the selected SHA must be non-empty,
exactly 40 characters, and hex-decodable. -/
def parseLsRemoteOutput (ref output : String) : Except String String :=
  match splitStr (trimSpace output) '\n' with
  | [] => .error ("no commit found for ref " ++ ref)
  | line0 :: rest =>
    if line0 = "" then .error ("no commit found for ref " ++ ref)
    else
      if pickCommitSHA (line0 :: rest) = "" then
        .error "unexpected git ls-remote output format"
      else if (pickCommitSHA (line0 :: rest)).length ≠ 40 then
        .error ("invalid commit SHA length: " ++ toString (pickCommitSHA (line0 :: rest)).length)
      else if !hexDecodable (pickCommitSHA (line0 :: rest)) then
        .error "invalid commit SHA format: not hexadecimal"
      else .ok (pickCommitSHA (line0 :: rest))

/-- `GetCommitChecksum` (`internal/git/client.go`): parse the URL, run
`git ls-remote remote ref ref^\x7b\x7d` (external; `lsRemote` is its
outcome — stdout on success, the failure otherwise), then parse and
validate the output.  The default-timeout installation does not affect
the returned value. -/
def GetCommitChecksum (rawURL : String) (lsRemote : Except String String) :
    Except String String :=
  match ParseGitURL rawURL with
  | .error e => .error ("failed to parse git URL: " ++ e)
  | .ok gitRef =>
    match lsRemote with
    | .error e => .error ("git ls-remote failed: " ++ e)
    | .ok output => parseLsRemoteOutput gitRef.ref output

/-- A line of `ls-remote` output with at least two fields. -/
def lineWellFormed (line : String) : Bool :=
  match fieldsStr line with
  | _ :: _ :: _ => true
  | _ => false

/-- A well-formed line whose ref name carries the annotated-tag
dereference suffix. -/
def lineIsDeref (line : String) : Bool :=
  match fieldsStr line with
  | _ :: refName :: _ => hasSuffixStr refName "^\x7b\x7d"
  | _ => false

/-- The first field (the SHA) of an output line. -/
def lineSHA (line : String) : String :=
  match fieldsStr line with
  | sha :: _ => sha
  | [] => ""

/-- The shape the specification demands of every returned SHA, stated
lower-case as the claim has it: exactly 40 characters from
`0-9a-f`. -/
def isLower40Hex (s : String) : Bool :=
  s.length == 40 && s.data.all (fun c => ('0' ≤ c && c ≤ '9') || ('a' ≤ c && c ≤ 'f'))

/-- Is a resolver outcome either an error or a 40-character hex string
(either case)? -/
def shaShapeOK : Except String String → Bool
  | .ok s => s.length == 40 && s.data.all isHexChar
  | .error _ => true

/-- One parsed image reference: the literal string from the manifest
and whether the parsed form already carries a digest. -/
structure ImageRef where
  original : String
  isDigested : Bool
deriving DecidableEq, Repr

/-- The parse result of one Dockerfile: image references, HTTP source
URLs and git source URLs, in manifest order. -/
structure ParseResult where
  images : List ImageRef
  httpSources : List String
  gitSources : List String
deriving DecidableEq, Repr

/-- `imageTask`: global order index plus the reference (the Go struct
stores the original string and the parsed reference; both live in
`ref` here). -/
structure ImageTask where
  index : Nat
  ref : ImageRef
deriving DecidableEq, Repr

/-- `httpTask` / `gitTask`: global order index plus the URL. -/
structure URLTask where
  index : Nat
  url : String
deriving DecidableEq, Repr

/-- `taskCollector`: the three task lists, the three per-kind seen
sets, and the running global order index. -/
structure TaskCollector where
  imageTasks : List ImageTask
  httpTasks : List URLTask
  gitTasks : List URLTask
  seenImages : List String
  seenHTTP : List String
  seenGit : List String
  orderIndex : Nat
deriving DecidableEq, Repr

/-- `newTaskCollector`. -/
def newTaskCollector : TaskCollector := ⟨[], [], [], [], [], [], 0⟩

/-- The image loop of `collect`: skip a literal already seen; mark it
seen; skip (but leave marked) a reference already carrying a digest;
otherwise append a task bearing the current order index and increment
the index. -/
def collectImages : TaskCollector → List ImageRef → TaskCollector
  | c, [] => c
  | c, r :: rest =>
    if c.seenImages.contains r.original then collectImages c rest
    else if r.isDigested then
      collectImages { c with seenImages := r.original :: c.seenImages } rest
    else
      collectImages
        { c with
          seenImages := r.original :: c.seenImages,
          imageTasks := c.imageTasks ++ [⟨c.orderIndex, r⟩],
          orderIndex := c.orderIndex + 1 } rest

/-- The HTTP loop of `collect`. -/
def collectHTTP : TaskCollector → List String → TaskCollector
  | c, [] => c
  | c, u :: rest =>
    if c.seenHTTP.contains u then collectHTTP c rest
    else
      collectHTTP
        { c with
          seenHTTP := u :: c.seenHTTP,
          httpTasks := c.httpTasks ++ [⟨c.orderIndex, u⟩],
          orderIndex := c.orderIndex + 1 } rest

/-- The git loop of `collect`. -/
def collectGit : TaskCollector → List String → TaskCollector
  | c, [] => c
  | c, u :: rest =>
    if c.seenGit.contains u then collectGit c rest
    else
      collectGit
        { c with
          seenGit := u :: c.seenGit,
          gitTasks := c.gitTasks ++ [⟨c.orderIndex, u⟩],
          orderIndex := c.orderIndex + 1 } rest

/-- `taskCollector.collect` on one parsed manifest: images, then HTTP
sources, then git sources. -/
def collect (c : TaskCollector) (m : ParseResult) : TaskCollector :=
  collectGit (collectHTTP (collectImages c m.images) m.httpSources) m.gitSources

/-- The collection phase of `GeneratePolicy`: `collect` over every
manifest in order, starting from `newTaskCollector`. -/
def collectAll (ms : List ParseResult) : TaskCollector :=
  ms.foldl collect newTaskCollector

/-! Specification-side functions used to state the collector claims. -/
/-- Keep the first occurrence of each image literal (`seen` the
already-excluded literals). -/
def dedupFirstImg (seen : List String) : List ImageRef → List ImageRef
  | [] => []
  | r :: rest =>
    if seen.contains r.original then dedupFirstImg seen rest
    else r :: dedupFirstImg (r.original :: seen) rest

/-- Keep the first occurrence of each URL. -/
def dedupFirstStr (seen : List String) : List String → List String
  | [] => []
  | u :: rest =>
    if seen.contains u then dedupFirstStr seen rest
    else u :: dedupFirstStr (u :: seen) rest

/-- The image references that survive the collector: first
occurrences, with already-digested references dropped (but still
marking their literal as seen). -/
def imgSurvivors (seen : List String) : List ImageRef → List ImageRef
  | [] => []
  | r :: rest =>
    if seen.contains r.original then imgSurvivors seen rest
    else if r.isDigested then imgSurvivors (r.original :: seen) rest
    else r :: imgSurvivors (r.original :: seen) rest

/-- The image seen-set after processing a reference list. -/
def imgSeenAfter (seen : List String) : List ImageRef → List String
  | [] => seen
  | r :: rest =>
    if seen.contains r.original then imgSeenAfter seen rest
    else imgSeenAfter (r.original :: seen) rest

/-- The URL seen-set after processing a URL list. -/
def strSeenAfter (seen : List String) : List String → List String
  | [] => seen
  | u :: rest =>
    if seen.contains u then strSeenAfter seen rest
    else strSeenAfter (u :: seen) rest

/-- Tag a list of image references with consecutive indices from `n`. -/
def withIndicesImg (n : Nat) : List ImageRef → List ImageTask
  | [] => []
  | r :: rest => ⟨n, r⟩ :: withIndicesImg (n + 1) rest

/-- Tag a list of URLs with consecutive indices from `n`. -/
def withIndicesURL (n : Nat) : List String → List URLTask
  | [] => []
  | u :: rest => ⟨n, u⟩ :: withIndicesURL (n + 1) rest

/-! Specification side for the order-index claim: the collector's
observation sequence.  Per manifest the collector observes the image
references, then the HTTP URLs, then the git URLs; across manifests the
sequences concatenate.  `survive` drops duplicate literals (per kind)
and already-digested images, exactly as the collector does; tagging the
surviving sequence with consecutive indices from `0` and partitioning
by kind must reproduce the three task lists. -/
/-- One observation made by the collector. -/
inductive Obs where
  | img (r : ImageRef)
  | http (url : String)
  | git (url : String)
deriving DecidableEq, Repr

/-- The three per-kind seen sets. -/
structure SeenSets where
  imgs : List String
  https : List String
  gits : List String
deriving DecidableEq, Repr

/-- The observations that produce tasks: first occurrences per kind,
with already-digested image references dropped (but marked seen). -/
def survive : SeenSets → List Obs → List Obs
  | _, [] => []
  | s, .img r :: rest =>
    if s.imgs.contains r.original then survive s rest
    else if r.isDigested then survive { s with imgs := r.original :: s.imgs } rest
    else .img r :: survive { s with imgs := r.original :: s.imgs } rest
  | s, .http u :: rest =>
    if s.https.contains u then survive s rest
    else .http u :: survive { s with https := u :: s.https } rest
  | s, .git u :: rest =>
    if s.gits.contains u then survive s rest
    else .git u :: survive { s with gits := u :: s.gits } rest

/-- The seen sets after a sequence of observations. -/
def seenObs : SeenSets → List Obs → SeenSets
  | s, [] => s
  | s, .img r :: rest =>
    if s.imgs.contains r.original then seenObs s rest
    else seenObs { s with imgs := r.original :: s.imgs } rest
  | s, .http u :: rest =>
    if s.https.contains u then seenObs s rest
    else seenObs { s with https := u :: s.https } rest
  | s, .git u :: rest =>
    if s.gits.contains u then seenObs s rest
    else seenObs { s with gits := u :: s.gits } rest

/-- Tag a sequence with consecutive indices from `n`. -/
def tagFrom (n : Nat) : List Obs → List (Nat × Obs)
  | [] => []
  | o :: rest => (n, o) :: tagFrom (n + 1) rest

/-- The observation sequence of one manifest: images, then HTTP
sources, then git sources. -/
def manifestObs (m : ParseResult) : List Obs :=
  m.images.map Obs.img ++ m.httpSources.map Obs.http ++ m.gitSources.map Obs.git

/-- The observation sequence across all input manifests. -/
def allObs (ms : List ParseResult) : List Obs := ms.flatMap manifestObs

/-- The image tasks of an indexed observation sequence. -/
def taggedImageTasks (l : List (Nat × Obs)) : List ImageTask :=
  l.filterMap fun p => match p.2 with | .img r => some ⟨p.1, r⟩ | _ => none

/-- The HTTP tasks of an indexed observation sequence. -/
def taggedHTTPTasks (l : List (Nat × Obs)) : List URLTask :=
  l.filterMap fun p => match p.2 with | .http u => some ⟨p.1, u⟩ | _ => none

/-- The git tasks of an indexed observation sequence. -/
def taggedGitTasks (l : List (Nat × Obs)) : List URLTask :=
  l.filterMap fun p => match p.2 with | .git u => some ⟨p.1, u⟩ | _ => none

/-! ## Proofs -/

/-- Claim C1, counterexample: the claim states that `checkCacheability`
classifies a response as volatile exactly when one of the listed
signals is present.  For the header set with no `Pragma`, a present but
malformed `Cache-Control`, and an `Expires` that parses to a past time,
the `Expires`-in-the-past signal is present, yet the code returns `nil`
(pinnable): the lenient early return for a malformed `Cache-Control`
skips the `Expires` check entirely. -/
theorem checkCacheability_not_exact_on_malformed_cc :
    checkCacheability ⟨"", some none, some (some true)⟩ = none ∧
      specVolatilitySignal ⟨"", some none, some (some true)⟩ = true := by
  constructor <;> rfl

/-- Claim C1 (amended): `checkCacheability` classifies a response as
volatile exactly when: `Pragma` contains `no-cache`; or a parseable
`Cache-Control` contains `no-store` or `no-cache`, or its effective
max-age (`s-maxage` when present, else `max-age`) equals `0`; or the
`Cache-Control` header is *not* present-and-malformed and `Expires`
parses to a time in the past.  In particular every header set with none
of these signals — any malformed `Cache-Control`, an unparsable
`Expires`, `Cache-Control: private` (not a directive the check reads),
and any non-zero max-age — yields no error. -/
theorem checkCacheability_characterization (h : HeaderSignals) :
    (checkCacheability h).isSome =
      (pragmaSignal h || ccDirectiveSignal h ||
        (!ccMalformed h && expiresPastSignal h)) := by
  rcases h with ⟨p, cc, ex⟩
  unfold checkCacheability pragmaSignal ccDirectiveSignal ccMalformed expiresPastSignal
    expiresCheck
  cases hb : containsSub (lowerStr p) "no-cache"
  · rcases cc with _ | _ | d
    · rcases ex with _ | _ | b
      · simp
      · simp
      · cases b <;> simp
    · simp
    · cases hns : d.noStore <;> cases hnc : d.noCachePresent <;>
        by_cases hma : (if 0 ≤ d.sMaxAge then d.sMaxAge else d.maxAge) = 0 <;>
          rcases ex with _ | _ | b
      all_goals try cases b
      all_goals simp_all
  · simp [hb]

/-- `Char.toLower` only moves basic-latin capitals into `a`–`z`, where
it is the identity, so it is idempotent. -/
lemma toLower_toLower (c : Char) : c.toLower.toLower = c.toLower := by
  by_cases h : c.toNat ≥ 65 ∧ c.toNat ≤ 90
  · obtain ⟨h1, h2⟩ := h
    have h65 : 65 ≤ c.toNat := h1
    have h90 : c.toNat ≤ 90 := h2
    simp only [Char.toLower, h65, h90, and_self, if_true, ge_iff_le]
    interval_cases h : c.toNat <;> simp_all
  · simp only [Char.toLower, ge_iff_le]
    rw [if_neg h, if_neg h]

/-- `lowerStr` is idempotent. -/
lemma lowerStr_lowerStr (s : String) : lowerStr (lowerStr s) = lowerStr s := by
  unfold lowerStr
  simp only [List.map_map]
  congr 1
  exact List.map_congr_left fun c _ => toLower_toLower c

/-- `headerGet` only depends on the lowercase form of the looked-up
name. -/
lemma headerGet_lowerStr (reqHeaders : List (String × String)) (name : String) :
    headerGet reqHeaders (lowerStr name) = headerGet reqHeaders name := by
  simp [headerGet, lowerStr_lowerStr]

/-- Reading back a map assignment. -/
lemma lookupHeader_mapSet (m : List (String × String)) (k v k' : String) :
    lookupHeader (mapSet m k v) k' = if k' = k then some v else lookupHeader m k' := by
  by_cases h : k' = k
  · subst h; simp [lookupHeader, mapSet, List.find?]
  · simp only [lookupHeader, mapSet, List.find?]
    have : (k == k') = false := by
      simp only [beq_eq_false_iff_ne, ne_eq]
      exact fun hk => h hk.symm
    simp [this, h]

/-- Invariant of the `collectVary` loop: a key is bound to the request
value of its name when some remaining `Vary` name produces it, and to
its prior binding otherwise. -/
lemma collectVary_lookup (reqHeaders : List (String × String)) (names : List String)
    (m : List (String × String)) (k : String) :
    lookupHeader (collectVary reqHeaders names m) k =
      if k ∈ names.filterMap (varyKeyOf reqHeaders) then
        some (headerGet reqHeaders k)
      else lookupHeader m k := by
  induction names generalizing m with
  | nil => simp [collectVary]
  | cons n rest ih =>
    simp only [collectVary, List.filterMap_cons]
    by_cases h1 : trimSpace n = ""
    · rw [if_pos h1]
      simp [varyKeyOf, h1, ih]
    · by_cases h2 : headerGet reqHeaders (trimSpace n) = ""
      · rw [if_neg h1, if_pos h2]
        simp [varyKeyOf, h1, h2, ih]
      · rw [if_neg h1, if_neg h2, ih, lookupHeader_mapSet]
        have hkey : varyKeyOf reqHeaders n = some (lowerStr (trimSpace n)) := by
          simp [varyKeyOf, h1, h2]
        simp only [hkey]
        by_cases hmem : k ∈ rest.filterMap (varyKeyOf reqHeaders)
        · simp [hmem, List.mem_cons]
        · by_cases hk : k = lowerStr (trimSpace n)
          · subst hk
            simp [hmem, List.mem_cons, headerGet_lowerStr]
          · simp [hmem, List.mem_cons, hk]

/-- Claim C7 (confirmed): for every request/response header pair, the
map returned by `extractVaryHeaders` binds exactly the (lowercased)
names of the response's `Vary` list that have a non-empty
case-insensitive value in the request, each to that request value; an
absent `Vary` header or `Vary: *` yields the empty map regardless of
the request headers. -/
theorem extractVaryHeaders_characterization (reqHeaders : List (String × String))
    (varyHeader : String) (k : String) :
    lookupHeader (extractVaryHeaders reqHeaders varyHeader) k =
      (if trimSpace varyHeader = "*" then none
       else if k ∈ varyCaptureKeys reqHeaders varyHeader then
         some (headerGet reqHeaders k)
       else none) := by
  unfold extractVaryHeaders varyCaptureKeys
  by_cases h0 : varyHeader = ""
  · subst h0
    have hsplit : splitStr "" ',' = [""] := by decide
    have hstar : trimSpace "" ≠ "*" := by decide
    rw [if_pos rfl, if_neg hstar, hsplit]
    have htrim : trimSpace "" = "" := by decide
    simp [varyKeyOf, lookupHeader, htrim]
  · rw [if_neg h0]
    by_cases hstar : trimSpace varyHeader = "*"
    · simp [hstar, lookupHeader]
    · rw [if_neg hstar, if_neg hstar, collectVary_lookup]
      simp [lookupHeader]

/-- Claim C2 (confirmed): in the strategy chain, an `Auth` error from
the provider-API strategy propagates immediately (neither the HEAD nor
the full-body outcome is consulted), and an `Auth` or `Volatile` error
from the HEAD strategy propagates immediately (the full-body outcome is
not consulted); every other failure of an earlier strategy — any
non-`Auth` provider-API failure, a provider-API success with an empty
checksum, a fatal HEAD failure (network error, missing digest, unusable
ETag, non-OK status), or a HEAD success with an empty checksum — falls
through to the next stage. -/
theorem strategy_chain_propagation :
    (∀ (u : String) (s : Nat) (head compute : Except HTTPError ChecksumResult),
      getChecksumWithHeaders true (.error (.auth u s)) head compute = .error (.auth u s))
    ∧ (∀ (x : String ⊕ (String × String)) (head compute : Except HTTPError ChecksumResult),
      getChecksumWithHeaders true (.error (mkNonAuthError x)) head compute =
        headStage head compute)
    ∧ (∀ head compute : Except HTTPError ChecksumResult,
      getChecksumWithHeaders true (.ok "") head compute = headStage head compute)
    ∧ (∀ (gh : Except HTTPError String) (head compute : Except HTTPError ChecksumResult),
      getChecksumWithHeaders false gh head compute = headStage head compute)
    ∧ (∀ (u : String) (s : Nat) (compute : Except HTTPError ChecksumResult),
      headStage (.error (.auth u s)) compute = .error (.auth u s))
    ∧ (∀ (u reason : String) (compute : Except HTTPError ChecksumResult),
      headStage (.error (.volatile u reason)) compute = .error (.volatile u reason))
    ∧ (∀ (msg : String) (compute : Except HTTPError ChecksumResult),
      headStage (.error (.fatal msg)) compute = compute)
    ∧ (∀ (hdrs : List (String × String)) (compute : Except HTTPError ChecksumResult),
      headStage (.ok ⟨"", hdrs⟩) compute = compute) := by
  refine ⟨fun u s head compute => rfl, fun x head compute => ?_,
    fun head compute => rfl, fun gh head compute => rfl,
    fun u s compute => rfl, fun u reason compute => rfl,
    fun msg compute => rfl, fun hdrs compute => ?_⟩
  · rcases x with msg | ⟨url, reason⟩ <;> rfl
  · simp [headStage]

/-- Appending pins down the prefix. -/
lemma hasPrefixStr_append (t s : String) : hasPrefixStr (t ++ s) t = true := by
  simp [hasPrefixStr, String.data_append]

/-- Claim C3, counterexample: the claim asserts a `sha256:` prefix on
every successful resolution, including the provider-API path.  The
code returns the GitHub asset's digest field verbatim, with no prefix
check: a release asset whose digest field is (say) `md5:`-tagged is
returned as-is by `GetChecksumWithHeaders`. -/
theorem github_digest_prefix_counterexample :
    getChecksumWithHeaders true
        (getChecksumFromGitHubRelease "https://github.com/o/r/releases/download/v1/a.tgz"
          200 true [⟨"a.tgz", "md5:0123456789abcdef"⟩] "a.tgz")
        (.error (.fatal "no usable checksum found in headers"))
        (.error (.fatal "network error")) =
      .ok ⟨"md5:0123456789abcdef", []⟩ ∧
    hasPrefixStr "md5:0123456789abcdef" "sha256:" = false := by
  constructor <;> rfl

/-- Claim C3 (amended): every checksum produced by the HEAD strategy
(S3 header or 64-hex ETag) and by the full-body path is prefixed with
`sha256:`; the provider-API path returns the matching release asset's
digest field verbatim (no prefix validation), so its checksum carries
the `sha256:` prefix exactly when the API's digest field does. -/
theorem checksum_sha256_prefix (rawURL ua : String) :
    (∀ r : HEADResponse,
      resultHasSha256Prefix (getChecksumFromHEADWithHeaders rawURL ua r) = true)
    ∧ (∀ r : GETResponse,
      resultHasSha256Prefix (computeChecksumWithHeaders rawURL ua r) = true)
    ∧ (∀ (status : Nat) (decodeOk : Bool) (assets : List GitHubReleaseAsset)
        (assetName : String),
      okDigestFromAssets
        (getChecksumFromGitHubRelease rawURL status decodeOk assets assetName) assets = true) := by
  refine ⟨fun r => ?_, fun r => ?_, fun status decodeOk assets assetName => ?_⟩
  · unfold getChecksumFromHEADWithHeaders
    split
    · rfl
    · split
      · rfl
      · split
        · rfl
        · split
          · split
            · rename_i checksum heq
              unfold extractS3Checksum at heq
              split at heq
              · simp only [Except.ok.injEq] at heq
                subst heq
                simp [resultHasSha256Prefix, hasPrefixStr_append]
              · simp at heq
            · rfl
          · split
            · simp [resultHasSha256Prefix, hasPrefixStr_append]
            · rfl
  · unfold computeChecksumWithHeaders
    split
    · rfl
    · split
      · rfl
      · split
        · rfl
        · split
          · split <;> rfl
          · split
            · rfl
            · simp [resultHasSha256Prefix, hasPrefixStr_append]
  · unfold getChecksumFromGitHubRelease
    split
    · rfl
    · split
      · rfl
      · split
        · rfl
        · split
          · rename_i digest heq
            unfold findAssetDigest at heq
            simp only [Option.map_eq_some'] at heq
            obtain ⟨a, hfind, hdig⟩ := heq
            have hmem := List.mem_of_find?_eq_some hfind
            simp only [okDigestFromAssets, List.any_eq_true]
            exact ⟨a, hmem, by simp [hdig]⟩
          · rfl

/-- Helper: on the full-body path with an OK status and pinnable cache
headers, a declared non-negative `Content-Length` differing from the
bytes read produces the fatal mismatch error naming both counts. -/
lemma computeChecksum_mismatch_eq (url ua vary : String) (hs : HeaderSignals)
    (hpin : checkCacheability hs = none) (cl : Int) (body dig : List Nat)
    (readErr : Option String) (h0 : 0 ≤ cl) (hne : (body.length : Int) ≠ cl) :
    computeChecksumWithHeaders url ua ⟨200, hs, cl, body, readErr, dig, vary⟩ =
      .error (.fatal (match readErr with
        | some e => "content length mismatch: server declared " ++ toString cl ++
            " bytes but sent " ++ toString (body.length : Int) ++ ": " ++ e
        | none => "content length mismatch: server declared " ++ toString cl ++
            " bytes but sent " ++ toString (body.length : Int))) := by
  unfold computeChecksumWithHeaders
  dsimp only
  rw [if_neg (by decide), if_neg (by decide), hpin]
  rw [if_pos ⟨h0, hne⟩]
  cases readErr <;> rfl

/-- Helper: with no declared `Content-Length` (`-1`) and no read error,
the checksum of the bytes read is returned. -/
lemma computeChecksum_noContentLength_eq (url ua vary : String) (hs : HeaderSignals)
    (hpin : checkCacheability hs = none) (body dig : List Nat) :
    computeChecksumWithHeaders url ua ⟨200, hs, -1, body, none, dig, vary⟩ =
      .ok ⟨"sha256:" ++ hexEncode dig, extractVaryHeaders (getReqHeaders ua) vary⟩ := by
  unfold computeChecksumWithHeaders
  dsimp only
  rw [if_neg (by decide), if_neg (by decide), hpin]
  rw [if_neg (by norm_num)]

/-- Claim C6 (confirmed): on the full-body fallback path (OK status,
pinnable cache headers), whenever the response declares a non-negative
`Content-Length` that differs from the number of bytes actually read —
in either direction, and whether or not the read also errored — the
resolution fails with a fatal (neither `Auth` nor `Volatile`) error
whose message names both the declared and the actually-read byte
counts; when no `Content-Length` is declared (`-1`), no such check is
applied and the checksum of the bytes read is returned. -/
theorem content_length_mismatch_check (hs : HeaderSignals)
    (hpin : checkCacheability hs = none) :
    (∀ (url ua vary : String) (body dig : List Nat) (k : Nat) (readErr : Option String),
      computeChecksumWithHeaders url ua
          ⟨200, hs, ((body.length + k + 1 : Nat) : Int), body, readErr, dig, vary⟩ =
        .error (.fatal (match readErr with
          | some e => "content length mismatch: server declared " ++
              toString ((body.length + k + 1 : Nat) : Int) ++ " bytes but sent " ++
              toString (body.length : Int) ++ ": " ++ e
          | none => "content length mismatch: server declared " ++
              toString ((body.length + k + 1 : Nat) : Int) ++ " bytes but sent " ++
              toString (body.length : Int))))
    ∧ (∀ (url ua vary : String) (pre post dig : List Nat) (b : Nat) (readErr : Option String),
      computeChecksumWithHeaders url ua
          ⟨200, hs, (pre.length : Int), pre ++ b :: post, readErr, dig, vary⟩ =
        .error (.fatal (match readErr with
          | some e => "content length mismatch: server declared " ++
              toString (pre.length : Int) ++ " bytes but sent " ++
              toString (((pre ++ b :: post).length : Nat) : Int) ++ ": " ++ e
          | none => "content length mismatch: server declared " ++
              toString (pre.length : Int) ++ " bytes but sent " ++
              toString (((pre ++ b :: post).length : Nat) : Int))))
    ∧ (∀ (url ua vary : String) (body dig : List Nat),
      computeChecksumWithHeaders url ua ⟨200, hs, -1, body, none, dig, vary⟩ =
        .ok ⟨"sha256:" ++ hexEncode dig, extractVaryHeaders (getReqHeaders ua) vary⟩) := by
  refine ⟨fun url ua vary body dig k readErr => ?_,
    fun url ua vary pre post dig b readErr => ?_,
    fun url ua vary body dig => ?_⟩
  · exact computeChecksum_mismatch_eq url ua vary hs hpin _ body dig readErr
      (by omega) (by omega)
  · exact computeChecksum_mismatch_eq url ua vary hs hpin _ (pre ++ b :: post) dig readErr
      (by omega) (by simp; omega)
  · exact computeChecksum_noContentLength_eq url ua vary hs hpin body dig

/-- Claim C6, witness: the specification's own example — declared
`Content-Length: 100` with a 5-byte body — produces the fatal mismatch
error naming 100 and 5. -/
theorem content_length_mismatch_check_witness :
    checkCacheability ⟨"", none, none⟩ = none ∧
    computeChecksumWithHeaders "https://example.com/f" "ua"
        ⟨200, ⟨"", none, none⟩, 100, [0, 1, 2, 3, 4], none, [], ""⟩ =
      .error (.fatal "content length mismatch: server declared 100 bytes but sent 5") :=
  ⟨rfl, (content_length_mismatch_check ⟨"", none, none⟩ rfl).1
    "https://example.com/f" "ua" "" [0, 1, 2, 3, 4] [] 94 none⟩

/-- `strings.Fields` never produces empty fields. -/
lemma fieldsStr_mem_ne_empty (s : String) (x : String) (hx : x ∈ fieldsStr s) : x ≠ "" := by
  simp only [fieldsStr, List.mem_filterMap] at hx
  obtain ⟨piece, _, hpiece⟩ := hx
  by_cases hemp : piece.isEmpty
  · simp [hemp] at hpiece
  · simp only [hemp, if_neg, Bool.false_eq_true, not_false_eq_true, Option.some.injEq] at hpiece
    subst hpiece
    intro hcontra
    have : piece = [] := congrArg String.data hcontra
    simp [List.isEmpty_iff] at hemp
    exact hemp this

/-- Invariant of the selection loop: the first dereferenced well-formed
line wins; otherwise the accumulator — seeded from the first
well-formed line — survives. -/
lemma goPickLoop_eq (lines : List String) (acc : String) :
    goPickLoop lines acc =
      match (lines.filter lineWellFormed).find? lineIsDeref with
      | some l => lineSHA l
      | none =>
        if acc = "" then
          match lines.filter lineWellFormed with
          | [] => ""
          | l :: _ => lineSHA l
        else acc := by
  induction lines generalizing acc with
  | nil => by_cases h : acc = "" <;> simp [goPickLoop, h]
  | cons line rest ih =>
    rcases hf : fieldsStr line with _ | ⟨sha, _ | ⟨refName, fs⟩⟩
    · have hwf : lineWellFormed line = false := by simp [lineWellFormed, hf]
      simp only [goPickLoop, hf, List.filter_cons, hwf]
      exact ih acc
    · have hwf : lineWellFormed line = false := by simp [lineWellFormed, hf]
      simp only [goPickLoop, hf, List.filter_cons, hwf]
      exact ih acc
    · have hwf : lineWellFormed line = true := by simp [lineWellFormed, hf]
      by_cases hd : hasSuffixStr refName "^\x7b\x7d"
      · have hdl : lineIsDeref line = true := by simp [lineIsDeref, hf, hd]
        have hsha : lineSHA line = sha := by simp [lineSHA, hf]
        simp [goPickLoop, hf, hd, List.filter_cons, hwf, List.find?_cons, hdl, hsha]
      · have hdl : lineIsDeref line = false := by simp [lineIsDeref, hf, hd]
        have hsha : lineSHA line = sha := by simp [lineSHA, hf]
        simp only [goPickLoop, hf, List.filter_cons, hwf, if_true, List.find?_cons, hdl]
        have hshane : sha ≠ "" :=
          fieldsStr_mem_ne_empty line sha (by rw [hf]; exact List.mem_cons_self _ _)
        by_cases hacc : acc = ""
        · subst hacc
          rw [if_neg hd, if_pos rfl, ih sha]
          rcases hfind : (rest.filter lineWellFormed).find? lineIsDeref with _ | l
          · simp [hfind, hshane, hsha]
          · simp [hfind]
        · rw [if_neg hd, if_neg hacc, ih acc]
          simp [hacc]

/-- Claim C8 (confirmed): the commit selected from `ls-remote` output
is the SHA of the first well-formed line whose ref name ends in the
annotated-tag dereference suffix when one is present, and the SHA of
the first well-formed line otherwise; concretely, for an annotated tag
where the remote returns both the tag line and the dereferenced line,
`GetCommitChecksum` returns the dereferenced (commit) SHA, not the tag
object's SHA. -/
theorem lsRemote_prefers_dereferenced_tag :
    (∀ lines : List String,
      pickCommitSHA lines =
        match (lines.filter lineWellFormed).find? lineIsDeref with
        | some l => lineSHA l
        | none =>
          match lines.filter lineWellFormed with
          | [] => ""
          | l :: _ => lineSHA l)
    ∧ GetCommitChecksum "https://github.com/o/r.git#v1"
        (.ok ("aaaaaaaaaaaaaaaaaaaaaaaaaaaaaaaaaaaaaaaa\trefs/tags/v1\nbbbbbbbbbbbbbbbbbbbbbbbbbbbbbbbbbbbbbbbb\trefs/tags/v1^\x7b\x7d")) =
      .ok "bbbbbbbbbbbbbbbbbbbbbbbbbbbbbbbbbbbbbbbb" := by
  constructor
  · intro lines
    rw [pickCommitSHA, goPickLoop_eq]
    rcases hfind : (lines.filter lineWellFormed).find? lineIsDeref with _ | l <;>
      simp [hfind]
  · rfl

/-- Claim C9, counterexample: the validation in `GetCommitChecksum` is
`len == 40` plus `hex.DecodeString`, which accepts uppercase hex
digits; a 40-character uppercase-hex first field is returned as-is, so
the returned SHA is not always lowercase as claimed. -/
theorem commit_sha_uppercase_accepted :
    parseLsRemoteOutput "main"
        "ABCDEF0123456789ABCDEF0123456789ABCDEF01\trefs/heads/main" =
      .ok "ABCDEF0123456789ABCDEF0123456789ABCDEF01" ∧
    isLower40Hex "ABCDEF0123456789ABCDEF0123456789ABCDEF01" = false := by
  constructor <;> rfl

/-- Helper: the output validation only lets 40-character hex strings
through. -/
lemma parseLsRemote_shape (ref output : String) :
    shaShapeOK (parseLsRemoteOutput ref output) = true := by
  unfold parseLsRemoteOutput
  rcases hsplit : splitStr (trimSpace output) '\n' with _ | ⟨line0, rest⟩
  · rfl
  · dsimp only
    by_cases h0 : line0 = ""
    · simp [h0, shaShapeOK]
    · rw [if_neg h0]
      by_cases hpe : pickCommitSHA (line0 :: rest) = ""
      · simp [hpe, shaShapeOK]
      · rw [if_neg hpe]
        by_cases h40 : (pickCommitSHA (line0 :: rest)).length ≠ 40
        · rw [if_pos h40]; rfl
        · rw [if_neg h40]
          by_cases hhex : (!hexDecodable (pickCommitSHA (line0 :: rest))) = true
          · rw [if_pos hhex]; rfl
          · rw [if_neg hhex]
            simp only [shaShapeOK, Bool.and_eq_true, beq_iff_eq]
            refine ⟨by simpa using h40, ?_⟩
            have hdec : hexDecodable (pickCommitSHA (line0 :: rest)) = true := by
              simpa using hhex
            simp only [hexDecodable, Bool.and_eq_true] at hdec
            exact hdec.2

/-- Claim C9 (amended): every commit SHA returned successfully by
`GetCommitChecksum` is exactly 40 hexadecimal characters — of either
case, since the validation (`len == 40` plus `hex.DecodeString`) is
case-insensitive, not lowercase-only as claimed; any candidate SHA of
a different length or containing a non-hexadecimal character yields an
error instead of the value. -/
theorem commit_sha_forty_hex :
    (∀ (rawURL : String) (lsRemote : Except String String),
      shaShapeOK (GetCommitChecksum rawURL lsRemote) = true)
    ∧ parseLsRemoteOutput "r" "abc\trefs/x" = .error "invalid commit SHA length: 3"
    ∧ parseLsRemoteOutput "r" "zzzzzzzzzzzzzzzzzzzzzzzzzzzzzzzzzzzzzzzz\trefs/x" =
        .error "invalid commit SHA format: not hexadecimal" := by
  refine ⟨fun rawURL lsRemote => ?_, rfl, rfl⟩
  unfold GetCommitChecksum
  split
  · rfl
  · split
    · rfl
    · exact parseLsRemote_shape _ _

/-- The first component of `breakFirst` is the prefix before the first
separator (the whole list when the separator does not occur). -/
lemma breakFirst_fst (sep : Char) (l : List Char) :
    (breakFirst sep l).1 = l.takeWhile (fun c => c != sep) := by
  induction l with
  | nil => rfl
  | cons c t ih =>
    by_cases h : c = sep
    · subst h
      simp [breakFirst, List.takeWhile_cons]
    · have hb : (c == sep) = false := by simpa using h
      rcases hbt : breakFirst sep t with ⟨pre, rest⟩
      rw [hbt] at ih
      simp [breakFirst, hb, hbt, List.takeWhile_cons, ih, h]

/-- Claim C10 (confirmed): `ParseGitURL` is total — for every input it
returns a `GitRef` and no error — and the returned remote is always
exactly the portion of the input before the first `#` (the whole input
when no `#` occurs). -/
theorem parseGitURL_total_remote (rawURL : String) :
    ∃ g : GitRef, ParseGitURL rawURL = .ok g ∧
      g.remote = String.mk (rawURL.data.takeWhile (fun c => c != '#')) := by
  have hfst := breakFirst_fst '#' rawURL.data
  unfold ParseGitURL
  rcases hb : breakFirst '#' rawURL.data with ⟨pre, rest⟩
  rw [hb] at hfst
  simp only at hfst
  rcases rest with _ | frag
  · exact ⟨_, rfl, congrArg String.mk hfst⟩
  · dsimp only
    by_cases hf : frag.isEmpty
    · rw [if_pos hf]
      exact ⟨_, rfl, congrArg String.mk hfst⟩
    · rw [if_neg hf]
      rcases hb2 : breakFirst ':' frag with ⟨refc, _ | sub⟩ <;>
        exact ⟨_, rfl, congrArg String.mk hfst⟩

/-- One-manifest image pass: appends the surviving references, tagged
with consecutive indices from the current order index; updates the
image seen-set; advances the order index by the number of tasks
created.  All other fields are untouched. -/
lemma collectImages_eq (refs : List ImageRef) (c : TaskCollector) :
    collectImages c refs = { c with
      imageTasks := c.imageTasks ++ withIndicesImg c.orderIndex (imgSurvivors c.seenImages refs),
      seenImages := imgSeenAfter c.seenImages refs,
      orderIndex := c.orderIndex + (imgSurvivors c.seenImages refs).length } := by
  induction refs generalizing c with
  | nil => simp [collectImages, imgSurvivors, imgSeenAfter, withIndicesImg]
  | cons r rest ih =>
    simp only [collectImages, imgSurvivors, imgSeenAfter]
    by_cases h1 : c.seenImages.contains r.original
    · rw [if_pos h1, if_pos h1, if_pos h1, ih]
    · rw [if_neg h1, if_neg h1, if_neg h1]
      by_cases h2 : r.isDigested
      · rw [if_pos h2, if_pos h2, ih]
      · rw [if_neg h2, if_neg h2, ih]
        simp [withIndicesImg, List.append_assoc]
        omega

/-- One-manifest HTTP pass. -/
lemma collectHTTP_eq (urls : List String) (c : TaskCollector) :
    collectHTTP c urls = { c with
      httpTasks := c.httpTasks ++ withIndicesURL c.orderIndex (dedupFirstStr c.seenHTTP urls),
      seenHTTP := strSeenAfter c.seenHTTP urls,
      orderIndex := c.orderIndex + (dedupFirstStr c.seenHTTP urls).length } := by
  induction urls generalizing c with
  | nil => simp [collectHTTP, dedupFirstStr, strSeenAfter, withIndicesURL]
  | cons u rest ih =>
    simp only [collectHTTP, dedupFirstStr, strSeenAfter]
    by_cases h1 : c.seenHTTP.contains u
    · rw [if_pos h1, if_pos h1, if_pos h1, ih]
    · rw [if_neg h1, if_neg h1, if_neg h1, ih]
      simp [withIndicesURL, List.append_assoc]
      omega

/-- One-manifest git pass. -/
lemma collectGit_eq (urls : List String) (c : TaskCollector) :
    collectGit c urls = { c with
      gitTasks := c.gitTasks ++ withIndicesURL c.orderIndex (dedupFirstStr c.seenGit urls),
      seenGit := strSeenAfter c.seenGit urls,
      orderIndex := c.orderIndex + (dedupFirstStr c.seenGit urls).length } := by
  induction urls generalizing c with
  | nil => simp [collectGit, dedupFirstStr, strSeenAfter, withIndicesURL]
  | cons u rest ih =>
    simp only [collectGit, dedupFirstStr, strSeenAfter]
    by_cases h1 : c.seenGit.contains u
    · rw [if_pos h1, if_pos h1, if_pos h1, ih]
    · rw [if_neg h1, if_neg h1, if_neg h1, ih]
      simp [withIndicesURL, List.append_assoc]
      omega

lemma seenObs_append (s : SeenSets) (l1 l2 : List Obs) :
    seenObs s (l1 ++ l2) = seenObs (seenObs s l1) l2 := by
  induction l1 generalizing s with
  | nil => rfl
  | cons o rest ih =>
    rcases o with r | u | u <;> simp only [List.cons_append, seenObs] <;> split <;> exact ih _

lemma survive_append (s : SeenSets) (l1 l2 : List Obs) :
    survive s (l1 ++ l2) = survive s l1 ++ survive (seenObs s l1) l2 := by
  induction l1 generalizing s with
  | nil => rfl
  | cons o rest ih =>
    rcases o with r | u | u <;> simp only [List.cons_append, survive, seenObs] <;> split
    · exact ih s
    · split
      · exact ih _
      · simp only [List.cons_append, List.cons.injEq, true_and]
        exact ih _
    · exact ih s
    · simp only [List.cons_append, List.cons.injEq, true_and]
      exact ih _
    · exact ih s
    · simp only [List.cons_append, List.cons.injEq, true_and]
      exact ih _

lemma tagFrom_append (n : Nat) (l1 l2 : List Obs) :
    tagFrom n (l1 ++ l2) = tagFrom n l1 ++ tagFrom (n + l1.length) l2 := by
  induction l1 generalizing n with
  | nil => simp [tagFrom]
  | cons o rest ih =>
    simp only [List.cons_append, tagFrom, List.length_cons]
    change (n, o) :: tagFrom (n + 1) (rest ++ l2) = _
    rw [ih]
    simp only [List.cons.injEq, true_and]
    have harith : n + 1 + rest.length = n + (rest.length + 1) := by omega
    rw [harith]

lemma survive_map_img (s : SeenSets) (refs : List ImageRef) :
    survive s (refs.map Obs.img) = (imgSurvivors s.imgs refs).map Obs.img := by
  induction refs generalizing s with
  | nil => rfl
  | cons r rest ih =>
    simp only [List.map_cons, survive, imgSurvivors]
    by_cases h1 : s.imgs.contains r.original = true
    · rw [if_pos h1, if_pos h1]
      exact ih s
    · rw [if_neg h1, if_neg h1]
      by_cases h2 : r.isDigested = true
      · rw [if_pos h2, if_pos h2]
        exact ih _
      · rw [if_neg h2, if_neg h2]
        simp only [List.map_cons, List.cons.injEq, true_and]
        exact ih _

lemma seenObs_map_img (s : SeenSets) (refs : List ImageRef) :
    seenObs s (refs.map Obs.img) = { s with imgs := imgSeenAfter s.imgs refs } := by
  induction refs generalizing s with
  | nil => rfl
  | cons r rest ih =>
    simp only [List.map_cons, seenObs, imgSeenAfter]
    by_cases h1 : s.imgs.contains r.original = true
    · rw [if_pos h1, if_pos h1]
      exact ih s
    · rw [if_neg h1, if_neg h1]
      exact ih _

lemma survive_map_http (s : SeenSets) (urls : List String) :
    survive s (urls.map Obs.http) = (dedupFirstStr s.https urls).map Obs.http := by
  induction urls generalizing s with
  | nil => rfl
  | cons u rest ih =>
    simp only [List.map_cons, survive, dedupFirstStr]
    by_cases h1 : s.https.contains u = true
    · rw [if_pos h1, if_pos h1]
      exact ih s
    · rw [if_neg h1, if_neg h1]
      simp only [List.map_cons, List.cons.injEq, true_and]
      exact ih _

lemma seenObs_map_http (s : SeenSets) (urls : List String) :
    seenObs s (urls.map Obs.http) = { s with https := strSeenAfter s.https urls } := by
  induction urls generalizing s with
  | nil => rfl
  | cons u rest ih =>
    simp only [List.map_cons, seenObs, strSeenAfter]
    by_cases h1 : s.https.contains u = true
    · rw [if_pos h1, if_pos h1]
      exact ih s
    · rw [if_neg h1, if_neg h1]
      exact ih _

lemma survive_map_git (s : SeenSets) (urls : List String) :
    survive s (urls.map Obs.git) = (dedupFirstStr s.gits urls).map Obs.git := by
  induction urls generalizing s with
  | nil => rfl
  | cons u rest ih =>
    simp only [List.map_cons, survive, dedupFirstStr]
    by_cases h1 : s.gits.contains u = true
    · rw [if_pos h1, if_pos h1]
      exact ih s
    · rw [if_neg h1, if_neg h1]
      simp only [List.map_cons, List.cons.injEq, true_and]
      exact ih _

lemma seenObs_map_git (s : SeenSets) (urls : List String) :
    seenObs s (urls.map Obs.git) = { s with gits := strSeenAfter s.gits urls } := by
  induction urls generalizing s with
  | nil => rfl
  | cons u rest ih =>
    simp only [List.map_cons, seenObs, strSeenAfter]
    by_cases h1 : s.gits.contains u = true
    · rw [if_pos h1, if_pos h1]
      exact ih s
    · rw [if_neg h1, if_neg h1]
      exact ih _

lemma taggedImageTasks_tagFrom_img (n : Nat) (S : List ImageRef) :
    taggedImageTasks (tagFrom n (S.map Obs.img)) = withIndicesImg n S := by
  induction S generalizing n with
  | nil => rfl
  | cons x rest ih =>
    have ih2 := ih (n + 1)
    simp only [taggedImageTasks] at ih2 ⊢
    simp [tagFrom, List.filterMap_cons, withIndicesImg, ih2]

lemma taggedImageTasks_tagFrom_http (n : Nat) (S : List String) :
    taggedImageTasks (tagFrom n (S.map Obs.http)) = [] := by
  induction S generalizing n with
  | nil => rfl
  | cons x rest ih =>
    have ih2 := ih (n + 1)
    simp only [taggedImageTasks] at ih2 ⊢
    simp [tagFrom, List.filterMap_cons, ih2]

lemma taggedImageTasks_tagFrom_git (n : Nat) (S : List String) :
    taggedImageTasks (tagFrom n (S.map Obs.git)) = [] := by
  induction S generalizing n with
  | nil => rfl
  | cons x rest ih =>
    have ih2 := ih (n + 1)
    simp only [taggedImageTasks] at ih2 ⊢
    simp [tagFrom, List.filterMap_cons, ih2]

lemma taggedHTTPTasks_tagFrom_img (n : Nat) (S : List ImageRef) :
    taggedHTTPTasks (tagFrom n (S.map Obs.img)) = [] := by
  induction S generalizing n with
  | nil => rfl
  | cons x rest ih =>
    have ih2 := ih (n + 1)
    simp only [taggedHTTPTasks] at ih2 ⊢
    simp [tagFrom, List.filterMap_cons, ih2]

lemma taggedHTTPTasks_tagFrom_http (n : Nat) (S : List String) :
    taggedHTTPTasks (tagFrom n (S.map Obs.http)) = withIndicesURL n S := by
  induction S generalizing n with
  | nil => rfl
  | cons x rest ih =>
    have ih2 := ih (n + 1)
    simp only [taggedHTTPTasks] at ih2 ⊢
    simp [tagFrom, List.filterMap_cons, withIndicesURL, ih2]

lemma taggedHTTPTasks_tagFrom_git (n : Nat) (S : List String) :
    taggedHTTPTasks (tagFrom n (S.map Obs.git)) = [] := by
  induction S generalizing n with
  | nil => rfl
  | cons x rest ih =>
    have ih2 := ih (n + 1)
    simp only [taggedHTTPTasks] at ih2 ⊢
    simp [tagFrom, List.filterMap_cons, ih2]

lemma taggedGitTasks_tagFrom_img (n : Nat) (S : List ImageRef) :
    taggedGitTasks (tagFrom n (S.map Obs.img)) = [] := by
  induction S generalizing n with
  | nil => rfl
  | cons x rest ih =>
    have ih2 := ih (n + 1)
    simp only [taggedGitTasks] at ih2 ⊢
    simp [tagFrom, List.filterMap_cons, ih2]

lemma taggedGitTasks_tagFrom_http (n : Nat) (S : List String) :
    taggedGitTasks (tagFrom n (S.map Obs.http)) = [] := by
  induction S generalizing n with
  | nil => rfl
  | cons x rest ih =>
    have ih2 := ih (n + 1)
    simp only [taggedGitTasks] at ih2 ⊢
    simp [tagFrom, List.filterMap_cons, ih2]

lemma taggedGitTasks_tagFrom_git (n : Nat) (S : List String) :
    taggedGitTasks (tagFrom n (S.map Obs.git)) = withIndicesURL n S := by
  induction S generalizing n with
  | nil => rfl
  | cons x rest ih =>
    have ih2 := ih (n + 1)
    simp only [taggedGitTasks] at ih2 ⊢
    simp [tagFrom, List.filterMap_cons, withIndicesURL, ih2]

lemma taggedImageTasks_append (l1 l2 : List (Nat × Obs)) :
    taggedImageTasks (l1 ++ l2) = taggedImageTasks l1 ++ taggedImageTasks l2 := by
  simp [taggedImageTasks]

lemma taggedHTTPTasks_append (l1 l2 : List (Nat × Obs)) :
    taggedHTTPTasks (l1 ++ l2) = taggedHTTPTasks l1 ++ taggedHTTPTasks l2 := by
  simp [taggedHTTPTasks]

lemma taggedGitTasks_append (l1 l2 : List (Nat × Obs)) :
    taggedGitTasks (l1 ++ l2) = taggedGitTasks l1 ++ taggedGitTasks l2 := by
  simp [taggedGitTasks]

lemma seenSets_eta (s : SeenSets) : (⟨s.imgs, s.https, s.gits⟩ : SeenSets) = s := rfl

/-- `collect` on one manifest, in per-kind terms: each kind appends its
surviving references tagged with consecutive global indices, the three
blocks consuming consecutive index ranges in the order images, HTTP,
git. -/
lemma collect_eq (c : TaskCollector) (m : ParseResult) :
    collect c m = { c with
      imageTasks := c.imageTasks ++
        withIndicesImg c.orderIndex (imgSurvivors c.seenImages m.images),
      httpTasks := c.httpTasks ++
        withIndicesURL (c.orderIndex + (imgSurvivors c.seenImages m.images).length)
          (dedupFirstStr c.seenHTTP m.httpSources),
      gitTasks := c.gitTasks ++
        withIndicesURL (c.orderIndex + (imgSurvivors c.seenImages m.images).length +
            (dedupFirstStr c.seenHTTP m.httpSources).length)
          (dedupFirstStr c.seenGit m.gitSources),
      seenImages := imgSeenAfter c.seenImages m.images,
      seenHTTP := strSeenAfter c.seenHTTP m.httpSources,
      seenGit := strSeenAfter c.seenGit m.gitSources,
      orderIndex := c.orderIndex + (imgSurvivors c.seenImages m.images).length +
        (dedupFirstStr c.seenHTTP m.httpSources).length +
        (dedupFirstStr c.seenGit m.gitSources).length } := by
  unfold collect
  rw [collectImages_eq, collectHTTP_eq, collectGit_eq]

/-- `collect` on one manifest, in observation-sequence terms. -/
lemma collect_eq_obs (c : TaskCollector) (m : ParseResult) :
    collect c m = { c with
      imageTasks := c.imageTasks ++ taggedImageTasks (tagFrom c.orderIndex
        (survive ⟨c.seenImages, c.seenHTTP, c.seenGit⟩ (manifestObs m))),
      httpTasks := c.httpTasks ++ taggedHTTPTasks (tagFrom c.orderIndex
        (survive ⟨c.seenImages, c.seenHTTP, c.seenGit⟩ (manifestObs m))),
      gitTasks := c.gitTasks ++ taggedGitTasks (tagFrom c.orderIndex
        (survive ⟨c.seenImages, c.seenHTTP, c.seenGit⟩ (manifestObs m))),
      seenImages := (seenObs ⟨c.seenImages, c.seenHTTP, c.seenGit⟩ (manifestObs m)).imgs,
      seenHTTP := (seenObs ⟨c.seenImages, c.seenHTTP, c.seenGit⟩ (manifestObs m)).https,
      seenGit := (seenObs ⟨c.seenImages, c.seenHTTP, c.seenGit⟩ (manifestObs m)).gits,
      orderIndex := c.orderIndex +
        (survive ⟨c.seenImages, c.seenHTTP, c.seenGit⟩ (manifestObs m)).length } := by
  have hsv : survive ⟨c.seenImages, c.seenHTTP, c.seenGit⟩ (manifestObs m) =
      (imgSurvivors c.seenImages m.images).map Obs.img ++
      ((dedupFirstStr c.seenHTTP m.httpSources).map Obs.http ++
        (dedupFirstStr c.seenGit m.gitSources).map Obs.git) := by
    unfold manifestObs
    rw [List.append_assoc, survive_append, survive_map_img, survive_append, seenObs_map_img,
      survive_map_http, seenObs_map_http, survive_map_git]
  have hseen : seenObs ⟨c.seenImages, c.seenHTTP, c.seenGit⟩ (manifestObs m) =
      ⟨imgSeenAfter c.seenImages m.images, strSeenAfter c.seenHTTP m.httpSources,
        strSeenAfter c.seenGit m.gitSources⟩ := by
    unfold manifestObs
    rw [List.append_assoc, seenObs_append, seenObs_map_img, seenObs_append, seenObs_map_http,
      seenObs_map_git]
  rw [collect_eq, hsv, hseen]
  simp only [tagFrom_append, taggedImageTasks_append, taggedHTTPTasks_append,
    taggedGitTasks_append, taggedImageTasks_tagFrom_img, taggedImageTasks_tagFrom_http,
    taggedImageTasks_tagFrom_git, taggedHTTPTasks_tagFrom_img, taggedHTTPTasks_tagFrom_http,
    taggedHTTPTasks_tagFrom_git, taggedGitTasks_tagFrom_img, taggedGitTasks_tagFrom_http,
    taggedGitTasks_tagFrom_git, List.length_append, List.length_map, List.append_nil,
    List.nil_append, List.append_assoc]
  refine congrArg₂ _ rfl ?_
  omega

/-- The collection fold across all manifests, in observation-sequence
terms: the three task lists are exactly the kind partitions of the
surviving observation sequence tagged with consecutive global indices
starting at the collector's order index. -/
lemma foldl_collect_eq (ms : List ParseResult) (c : TaskCollector) :
    ms.foldl collect c = { c with
      imageTasks := c.imageTasks ++ taggedImageTasks (tagFrom c.orderIndex
        (survive ⟨c.seenImages, c.seenHTTP, c.seenGit⟩ (allObs ms))),
      httpTasks := c.httpTasks ++ taggedHTTPTasks (tagFrom c.orderIndex
        (survive ⟨c.seenImages, c.seenHTTP, c.seenGit⟩ (allObs ms))),
      gitTasks := c.gitTasks ++ taggedGitTasks (tagFrom c.orderIndex
        (survive ⟨c.seenImages, c.seenHTTP, c.seenGit⟩ (allObs ms))),
      seenImages := (seenObs ⟨c.seenImages, c.seenHTTP, c.seenGit⟩ (allObs ms)).imgs,
      seenHTTP := (seenObs ⟨c.seenImages, c.seenHTTP, c.seenGit⟩ (allObs ms)).https,
      seenGit := (seenObs ⟨c.seenImages, c.seenHTTP, c.seenGit⟩ (allObs ms)).gits,
      orderIndex := c.orderIndex +
        (survive ⟨c.seenImages, c.seenHTTP, c.seenGit⟩ (allObs ms)).length } := by
  induction ms generalizing c with
  | nil =>
    simp [allObs, survive, seenObs, tagFrom, taggedImageTasks, taggedHTTPTasks,
      taggedGitTasks, seenSets_eta]
  | cons m rest ih =>
    simp only [List.foldl_cons]
    rw [collect_eq_obs, ih]
    have hobs : allObs (m :: rest) = manifestObs m ++ allObs rest := by
      simp [allObs]
    rw [hobs, survive_append, seenObs_append, tagFrom_append, taggedImageTasks_append,
      taggedHTTPTasks_append, taggedGitTasks_append]
    simp only [seenSets_eta, List.append_assoc, List.length_append]
    refine congrArg₂ _ rfl ?_
    omega

lemma withIndicesImg_map_ref (n : Nat) (S : List ImageRef) :
    (withIndicesImg n S).map (·.ref) = S := by
  induction S generalizing n with
  | nil => rfl
  | cons r rest ih => simp [withIndicesImg, ih]

lemma withIndicesURL_map_url (n : Nat) (S : List String) :
    (withIndicesURL n S).map (·.url) = S := by
  induction S generalizing n with
  | nil => rfl
  | cons u rest ih => simp [withIndicesURL, ih]

lemma imgSurvivors_append (seen : List String) (xs ys : List ImageRef) :
    imgSurvivors seen (xs ++ ys) =
      imgSurvivors seen xs ++ imgSurvivors (imgSeenAfter seen xs) ys := by
  induction xs generalizing seen with
  | nil => rfl
  | cons r rest ih =>
    simp only [List.cons_append, imgSurvivors, imgSeenAfter]
    split
    · exact ih seen
    · split
      · exact ih _
      · simp only [List.cons_append, List.cons.injEq, true_and]
        exact ih _

lemma imgSeenAfter_append (seen : List String) (xs ys : List ImageRef) :
    imgSeenAfter seen (xs ++ ys) = imgSeenAfter (imgSeenAfter seen xs) ys := by
  induction xs generalizing seen with
  | nil => rfl
  | cons r rest ih =>
    simp only [List.cons_append, imgSeenAfter]
    split <;> exact ih _

lemma dedupFirstStr_append (seen : List String) (xs ys : List String) :
    dedupFirstStr seen (xs ++ ys) =
      dedupFirstStr seen xs ++ dedupFirstStr (strSeenAfter seen xs) ys := by
  induction xs generalizing seen with
  | nil => rfl
  | cons u rest ih =>
    simp only [List.cons_append, dedupFirstStr, strSeenAfter]
    split
    · exact ih seen
    · simp only [List.cons_append, List.cons.injEq, true_and]
      exact ih _

lemma strSeenAfter_append (seen : List String) (xs ys : List String) :
    strSeenAfter seen (xs ++ ys) = strSeenAfter (strSeenAfter seen xs) ys := by
  induction xs generalizing seen with
  | nil => rfl
  | cons u rest ih =>
    simp only [List.cons_append, strSeenAfter]
    split <;> exact ih _

/-- The collector's image survivors are exactly the first occurrences
with the already-digested references filtered out. -/
lemma imgSurvivors_eq_dedup_filter (seen : List String) (refs : List ImageRef) :
    imgSurvivors seen refs = (dedupFirstImg seen refs).filter (fun r => !r.isDigested) := by
  induction refs generalizing seen with
  | nil => rfl
  | cons r rest ih =>
    simp only [imgSurvivors, dedupFirstImg]
    by_cases h1 : seen.contains r.original = true
    · rw [if_pos h1, if_pos h1]
      exact ih seen
    · rw [if_neg h1, if_neg h1, List.filter_cons]
      cases hr : r.isDigested <;> simp [ih]

/-- The fold's image tasks at the original-reference level, threading
the seen set. -/
lemma foldl_collect_images (ms : List ParseResult) (c : TaskCollector) :
    (ms.foldl collect c).imageTasks.map (·.ref) =
      c.imageTasks.map (·.ref) ++ imgSurvivors c.seenImages (ms.flatMap (·.images)) ∧
    (ms.foldl collect c).seenImages = imgSeenAfter c.seenImages (ms.flatMap (·.images)) := by
  induction ms generalizing c with
  | nil => simp [imgSurvivors, imgSeenAfter]
  | cons m rest ih =>
    simp only [List.foldl_cons, List.flatMap_cons]
    rw [collect_eq]
    obtain ⟨ih1, ih2⟩ := ih { c with
      imageTasks := c.imageTasks ++
        withIndicesImg c.orderIndex (imgSurvivors c.seenImages m.images),
      httpTasks := c.httpTasks ++
        withIndicesURL (c.orderIndex + (imgSurvivors c.seenImages m.images).length)
          (dedupFirstStr c.seenHTTP m.httpSources),
      gitTasks := c.gitTasks ++
        withIndicesURL (c.orderIndex + (imgSurvivors c.seenImages m.images).length +
            (dedupFirstStr c.seenHTTP m.httpSources).length)
          (dedupFirstStr c.seenGit m.gitSources),
      seenImages := imgSeenAfter c.seenImages m.images,
      seenHTTP := strSeenAfter c.seenHTTP m.httpSources,
      seenGit := strSeenAfter c.seenGit m.gitSources,
      orderIndex := c.orderIndex + (imgSurvivors c.seenImages m.images).length +
        (dedupFirstStr c.seenHTTP m.httpSources).length +
        (dedupFirstStr c.seenGit m.gitSources).length }
    refine ⟨?_, ?_⟩
    · rw [ih1]
      simp [imgSurvivors_append, withIndicesImg_map_ref, List.append_assoc]
    · rw [ih2]
      simp [imgSeenAfter_append]

/-- The fold's HTTP tasks at the URL level. -/
lemma foldl_collect_http (ms : List ParseResult) (c : TaskCollector) :
    (ms.foldl collect c).httpTasks.map (·.url) =
      c.httpTasks.map (·.url) ++ dedupFirstStr c.seenHTTP (ms.flatMap (·.httpSources)) ∧
    (ms.foldl collect c).seenHTTP = strSeenAfter c.seenHTTP (ms.flatMap (·.httpSources)) := by
  induction ms generalizing c with
  | nil => simp [dedupFirstStr, strSeenAfter]
  | cons m rest ih =>
    simp only [List.foldl_cons, List.flatMap_cons]
    rw [collect_eq]
    obtain ⟨ih1, ih2⟩ := ih { c with
      imageTasks := c.imageTasks ++
        withIndicesImg c.orderIndex (imgSurvivors c.seenImages m.images),
      httpTasks := c.httpTasks ++
        withIndicesURL (c.orderIndex + (imgSurvivors c.seenImages m.images).length)
          (dedupFirstStr c.seenHTTP m.httpSources),
      gitTasks := c.gitTasks ++
        withIndicesURL (c.orderIndex + (imgSurvivors c.seenImages m.images).length +
            (dedupFirstStr c.seenHTTP m.httpSources).length)
          (dedupFirstStr c.seenGit m.gitSources),
      seenImages := imgSeenAfter c.seenImages m.images,
      seenHTTP := strSeenAfter c.seenHTTP m.httpSources,
      seenGit := strSeenAfter c.seenGit m.gitSources,
      orderIndex := c.orderIndex + (imgSurvivors c.seenImages m.images).length +
        (dedupFirstStr c.seenHTTP m.httpSources).length +
        (dedupFirstStr c.seenGit m.gitSources).length }
    refine ⟨?_, ?_⟩
    · rw [ih1]
      simp [dedupFirstStr_append, withIndicesURL_map_url, List.append_assoc]
    · rw [ih2]
      simp [strSeenAfter_append]

/-- The fold's git tasks at the URL level. -/
lemma foldl_collect_git (ms : List ParseResult) (c : TaskCollector) :
    (ms.foldl collect c).gitTasks.map (·.url) =
      c.gitTasks.map (·.url) ++ dedupFirstStr c.seenGit (ms.flatMap (·.gitSources)) ∧
    (ms.foldl collect c).seenGit = strSeenAfter c.seenGit (ms.flatMap (·.gitSources)) := by
  induction ms generalizing c with
  | nil => simp [dedupFirstStr, strSeenAfter]
  | cons m rest ih =>
    simp only [List.foldl_cons, List.flatMap_cons]
    rw [collect_eq]
    obtain ⟨ih1, ih2⟩ := ih { c with
      imageTasks := c.imageTasks ++
        withIndicesImg c.orderIndex (imgSurvivors c.seenImages m.images),
      httpTasks := c.httpTasks ++
        withIndicesURL (c.orderIndex + (imgSurvivors c.seenImages m.images).length)
          (dedupFirstStr c.seenHTTP m.httpSources),
      gitTasks := c.gitTasks ++
        withIndicesURL (c.orderIndex + (imgSurvivors c.seenImages m.images).length +
            (dedupFirstStr c.seenHTTP m.httpSources).length)
          (dedupFirstStr c.seenGit m.gitSources),
      seenImages := imgSeenAfter c.seenImages m.images,
      seenHTTP := strSeenAfter c.seenHTTP m.httpSources,
      seenGit := strSeenAfter c.seenGit m.gitSources,
      orderIndex := c.orderIndex + (imgSurvivors c.seenImages m.images).length +
        (dedupFirstStr c.seenHTTP m.httpSources).length +
        (dedupFirstStr c.seenGit m.gitSources).length }
    refine ⟨?_, ?_⟩
    · rw [ih1]
      simp [dedupFirstStr_append, withIndicesURL_map_url, List.append_assoc]
    · rw [ih2]
      simp [strSeenAfter_append]

/-- The deduplicated image originals are pairwise distinct and avoid
the seen set. -/
lemma dedupFirstImg_originals (seen : List String) (l : List ImageRef) :
    ((dedupFirstImg seen l).map (·.original)).Nodup ∧
      ∀ x ∈ (dedupFirstImg seen l).map (·.original), seen.contains x = false := by
  induction l generalizing seen with
  | nil => simp [dedupFirstImg]
  | cons r rest ih =>
    simp only [dedupFirstImg]
    by_cases h1 : seen.contains r.original = true
    · rw [if_pos h1]
      exact ih seen
    · rw [if_neg h1]
      obtain ⟨ihn, ihs⟩ := ih (r.original :: seen)
      refine ⟨?_, ?_⟩
      · simp only [List.map_cons, List.nodup_cons]
        refine ⟨fun hmem => ?_, ihn⟩
        have := ihs _ hmem
        simp [List.contains_cons] at this
      · intro x hx
        simp only [List.map_cons, List.mem_cons] at hx
        rcases hx with rfl | hx
        · simpa using h1
        · have := ihs x hx
          simp only [List.contains_cons, Bool.or_eq_false_iff] at this
          exact this.2

/-- The deduplicated URLs are pairwise distinct and avoid the seen
set. -/
lemma dedupFirstStr_nodup (seen : List String) (l : List String) :
    (dedupFirstStr seen l).Nodup ∧
      ∀ x ∈ dedupFirstStr seen l, seen.contains x = false := by
  induction l generalizing seen with
  | nil => simp [dedupFirstStr]
  | cons u rest ih =>
    simp only [dedupFirstStr]
    by_cases h1 : seen.contains u = true
    · rw [if_pos h1]
      exact ih seen
    · rw [if_neg h1]
      obtain ⟨ihn, ihs⟩ := ih (u :: seen)
      refine ⟨?_, ?_⟩
      · simp only [List.nodup_cons]
        refine ⟨fun hmem => ?_, ihn⟩
        have := ihs _ hmem
        simp [List.contains_cons] at this
      · intro x hx
        simp only [List.mem_cons] at hx
        rcases hx with rfl | hx
        · simpa using h1
        · have := ihs x hx
          simp only [List.contains_cons, Bool.or_eq_false_iff] at this
          exact this.2

/-- Claim C4 (confirmed): over any list of input manifests, the
collector's image tasks are exactly the first occurrences of each image
literal — a reference whose literal was already seen anywhere,
including in a different manifest, produces no task — with the
references that already carry a digest filtered out before task
creation; the HTTP and git tasks are exactly the first occurrences of
their literal URLs; consequently each kind's task list mentions each
literal at most once, and no image task carries a digested
reference. -/
theorem collector_dedup_and_digest_filter (ms : List ParseResult) :
    (collectAll ms).imageTasks.map (·.ref) =
      (dedupFirstImg [] (ms.flatMap (·.images))).filter (fun r => !r.isDigested)
    ∧ (collectAll ms).httpTasks.map (·.url) = dedupFirstStr [] (ms.flatMap (·.httpSources))
    ∧ (collectAll ms).gitTasks.map (·.url) = dedupFirstStr [] (ms.flatMap (·.gitSources))
    ∧ (∀ t ∈ (collectAll ms).imageTasks, t.ref.isDigested = false)
    ∧ ((collectAll ms).imageTasks.map (·.ref.original)).Nodup
    ∧ ((collectAll ms).httpTasks.map (·.url)).Nodup
    ∧ ((collectAll ms).gitTasks.map (·.url)).Nodup := by
  have h1 : (collectAll ms).imageTasks.map (·.ref) =
      (dedupFirstImg [] (ms.flatMap (·.images))).filter (fun r => !r.isDigested) := by
    have := (foldl_collect_images ms newTaskCollector).1
    simpa [collectAll, newTaskCollector, imgSurvivors_eq_dedup_filter] using this
  have h2 : (collectAll ms).httpTasks.map (·.url) =
      dedupFirstStr [] (ms.flatMap (·.httpSources)) := by
    have := (foldl_collect_http ms newTaskCollector).1
    simpa [collectAll, newTaskCollector] using this
  have h3 : (collectAll ms).gitTasks.map (·.url) =
      dedupFirstStr [] (ms.flatMap (·.gitSources)) := by
    have := (foldl_collect_git ms newTaskCollector).1
    simpa [collectAll, newTaskCollector] using this
  refine ⟨h1, h2, h3, ?_, ?_, ?_, ?_⟩
  · intro t ht
    have hmem : t.ref ∈ (collectAll ms).imageTasks.map (·.ref) :=
      List.mem_map_of_mem _ ht
    rw [h1] at hmem
    have := (List.mem_filter.mp hmem).2
    simpa using this
  · have hmm : (collectAll ms).imageTasks.map (·.ref.original) =
        ((collectAll ms).imageTasks.map (·.ref)).map (·.original) := by
      simp [List.map_map]
    rw [hmm, h1]
    have hsub : List.Sublist
        (((dedupFirstImg [] (ms.flatMap (·.images))).filter
          (fun r => !r.isDigested)).map (·.original))
        ((dedupFirstImg [] (ms.flatMap (·.images))).map (·.original)) :=
      (List.filter_sublist _).map _
    exact (dedupFirstImg_originals [] _).1.sublist hsub
  · rw [h2]
    exact (dedupFirstStr_nodup [] _).1
  · rw [h3]
    exact (dedupFirstStr_nodup [] _).1

/-- Claim C5 (confirmed): the three task lists produced by the
collector are exactly the kind partitions of the surviving observation
sequence (the collector's observation order: per manifest its images,
then its HTTP sources, then its git sources, manifests in input order;
duplicates and already-digested images dropped) tagged with consecutive
global indices starting at `0` — the order index is shared and
incremented across all three lists as references are first observed,
and each task's index is the position of its reference's first
task-producing observation across all input manifests, so sorting by
it restores a single manifest-consistent ordering. -/
theorem task_global_order_index (ms : List ParseResult) :
    (collectAll ms).imageTasks =
      taggedImageTasks (tagFrom 0 (survive ⟨[], [], []⟩ (allObs ms)))
    ∧ (collectAll ms).httpTasks =
      taggedHTTPTasks (tagFrom 0 (survive ⟨[], [], []⟩ (allObs ms)))
    ∧ (collectAll ms).gitTasks =
      taggedGitTasks (tagFrom 0 (survive ⟨[], [], []⟩ (allObs ms)))
    ∧ (collectAll ms).orderIndex = (survive ⟨[], [], []⟩ (allObs ms)).length := by
  unfold collectAll
  rw [foldl_collect_eq]
  exact ⟨by simp [newTaskCollector], by simp [newTaskCollector],
    by simp [newTaskCollector], by simp [newTaskCollector]⟩

end ContainerSourcePolicy
